import Mathlib

/-!
Verification development for the `mitre-technique-inference v2` notebook
utilities (`utils/inference.py`): a shallow embedding of the prediction
formatting pipeline (`format_predictions`), the SHAP bucket partitioning
(`ShapPipeline.go`), the IOC aggregation (`transform_list_of_ioc_dicts`),
and the report-row access of `_process_shap_explainability_for_row`,
together with theorems settling the specification's claims.

Modelling conventions:
- Python `float` scores and SHAP values are modelled as `ℚ`.
- A Python `dict` is modelled as an association list with unique keys in
  first-insertion order; assigning to an existing key updates the entry in
  place (last write wins), assigning a fresh key appends it.
- Python exceptions (`ValueError` from `max([])`, `IndexError`/`KeyError`
  from subscripting, `ValueError` from `int(...)`) are modelled by `Option`
  (`none` = the call raises) or by `Except` where the source attaches a
  message.
- The opaque collaborators (the classifier and the SHAP explainer) are
  parameters: the classifier's outputs are passed in as a list, and the
  explainer is a function from text and label to (values, base value,
  tokens), exactly the slice `shap_values[0, :, label]` the source reads.
-/

namespace Inference

/-! ### Python dictionaries as association lists -/

/-- Replace the value of every entry whose key is `k` by `v` (a dict holds
at most one such entry). -/
def updEntries {α β : Type} [DecidableEq α] (k : α) (v : β) (d : List (α × β)) :
    List (α × β) :=
  d.map (fun kv => if kv.1 = k then (k, v) else kv)

/-- One assignment step `d[k] = v` on a Python dict modelled as an
association list: if the key is present its entry is updated in place
(keeping its position), otherwise the pair is appended at the end. -/
def dictInsert {α β : Type} [DecidableEq α] (d : List (α × β)) (k : α) (v : β) :
    List (α × β) :=
  if k ∈ d.map Prod.fst then updEntries k v d
  else d ++ [(k, v)]

/-- Python `dict(pairs)`: fold the pairs into an empty dict, last write
wins for duplicate keys, keys kept in first-occurrence order. -/
def dictOfPairs {α β : Type} [DecidableEq α] (l : List (α × β)) : List (α × β) :=
  l.foldl (fun d kv => dictInsert d kv.1 kv.2) []

/-- Python `d[k]` with a default (`defaultdict` read): the value of the
first entry whose key is `k`, or the default when the key is absent. -/
def dictGetD {α β : Type} [DecidableEq α] (d : List (α × β)) (k : α) (dflt : β) : β :=
  match d.find? (fun kv => kv.1 = k) with
  | some kv => kv.2
  | none => dflt

/-! ### Token processing and rounding (`ShapPipeline.go`) -/

/-- `np.char.strip`: remove leading and trailing whitespace. -/
def pyStrip (s : String) : String :=
  String.mk (((s.data.dropWhile Char.isWhitespace).reverse.dropWhile
    Char.isWhitespace).reverse)

/-- `re.sub(r'Ġ', '', el)` applied after `np.char.strip`: strip
whitespace, then delete every occurrence of the tokenizer's `Ġ`
start-of-word marker. -/
def procToken (s : String) : String :=
  String.mk ((pyStrip s).data.filter (fun c => c ≠ 'Ġ'))

/-- Round `a / b` (with `b > 0`) to the nearest integer, halves to even,
as `np.round` does; phrased on the numerator and denominator so that it
evaluates by integer arithmetic. `f` is the floor of `a / b` and `r` the
remainder, so `a / b - f = r / b` is compared against `1/2` via `2r ? b`. -/
def roundHalfEvenInt (a : ℤ) (b : ℕ) : ℤ :=
  let f : ℤ := a.fdiv b
  let r : ℤ := a - f * b
  if 2 * r < (b : ℤ) then f
  else if (b : ℤ) < 2 * r then f + 1
  else if f % 2 = 0 then f else f + 1

/-- `np.round(x, 5)`: round to 5 decimal places, halves to even
(`x * 10^5` is `(x.num * 10^5) / x.den` as an integer fraction). -/
def round5 (q : ℚ) : ℚ :=
  Rat.divInt (roundHalfEvenInt (q.num * 100000) q.den) 100000

/-! ### Data model -/

/-- The configuration dict `configs`: the confidence threshold
`configs['score']` and the threat-intel document string `configs['ti']`. -/
structure Configs where
  score : ℚ
  ti : String
  deriving DecidableEq, Repr

/-- One classifier output dict before enrichment: `label` of the form
`"LABEL_<int>"` and the confidence `score`. -/
structure Output where
  label : String
  score : ℚ
  deriving DecidableEq, Repr

/-- A classifier output dict after `format_predictions` has attached
`technique`, `technique_name` and `webpage_link` to it. -/
structure EnrichedOutput where
  label : String
  score : ℚ
  technique : String
  technique_name : String
  webpage_link : String
  deriving DecidableEq, Repr

/-- A per-chunk IOC mapping: IOC-type string to list of IOC-value strings. -/
abbrev IocDict := List (String × List String)

/-- The `ProcessData` object produced by upstream preprocessing: the raw
chunks, the parallel processed texts, and the parallel per-chunk IOC dicts. -/
structure ProcessData where
  chunked_data : List String
  processed_data : List String
  iocs : List IocDict
  deriving DecidableEq, Repr

/-- The label-metadata resource: `labels['label_to_technique']` (class
index to technique ID) and `labels['technique_to_name']` (technique ID to
display name). A `none` result models a `KeyError`. -/
structure Labels where
  label_to_technique : Nat → Option String
  technique_to_name : String → Option String

/-- `shap_base`: rounded values, baseline, raw tokens, processed tokens. -/
structure ShapBase where
  values : List ℚ
  base_values : ℚ
  data : List String
  token_processed : List String
  deriving DecidableEq, Repr

/-- `shap_contribution`: the three token-to-value bucket dicts. -/
structure ShapContribution where
  positive : List (String × ℚ)
  neutral : List (String × ℚ)
  negative : List (String × ℚ)
  deriving DecidableEq, Repr

/-- The opaque SHAP explainer: text and target label to the slice
`shap_values[0, :, label]` as (values, base_values, data tokens). -/
abbrev Explainer := String → String → (List ℚ × ℚ × List String)

/-- One row of the inference report, fields in the source's fixed column
order: `chunk_#`, `sentences_#`, `threat_intel`, `processed_threat_intel`,
`output`, `model`, `iocs`, `shap_base`, `shap_contribution`. -/
structure InferenceRow where
  chunk_num : Nat
  sentences_num : String
  threat_intel : String
  processed_threat_intel : String
  output : EnrichedOutput
  model : String
  iocs : IocDict
  shap_base : ShapBase
  shap_contribution : ShapContribution
  deriving DecidableEq, Repr

/-! ### `ShapPipeline.go`: bucket partitioning -/

/-- The deterministic tail of `ShapPipeline.go`, after the opaque
explainer call: round the values, process the tokens, and partition the
(token, value) pairs into positive (> 0), neutral (== 0) and negative
(< 0) bucket dicts, each built with Python `dict(zip(...))` semantics. -/
def shapGo (values : List ℚ) (baseVal : ℚ) (data : List String) :
    ShapBase × ShapContribution :=
  let vs := values.map round5
  let tp := data.map procToken
  let pairs := tp.zip vs
  ({ values := vs, base_values := baseVal, data := data, token_processed := tp },
   { positive := dictOfPairs (pairs.filter (fun p => 0 < p.2)),
     neutral := dictOfPairs (pairs.filter (fun p => p.2 = 0)),
     negative := dictOfPairs (pairs.filter (fun p => p.2 < 0)) })

/-- The aligned (processed token, rounded value) pairs `shapGo` partitions:
the zip of the processed tokens with the rounded values. -/
def pairsOf (values : List ℚ) (data : List String) : List (String × ℚ) :=
  (data.map procToken).zip (values.map round5)

/-- `ShapPipeline.go` with the opaque explainer factored out: call the
explainer on the chunk text and the prediction's label, then partition. -/
def shapRun (explain : Explainer) (text : String) (label : String) :
    ShapBase × ShapContribution :=
  let e := explain text label
  shapGo e.1 e.2.1 e.2.2

/-! ### Label parsing and enrichment -/

/-- Python `str.split(sep)` for a one-character separator, on the char
list: splits at every occurrence of the separator and keeps empty parts. -/
def pySplitChar (sep : Char) : List Char → List (List Char)
  | [] => [[]]
  | c :: rest =>
    let r := pySplitChar sep rest
    if c = sep then [] :: r
    else
      match r with
      | [] => [[c]]
      | h :: t => (c :: h) :: t

/-- Python `int(s)` restricted to the nonnegative digit strings the
`"LABEL_<int>"` contract produces; `none` models the `ValueError` raised
on any other input. -/
def pyInt? (l : List Char) : Option Nat :=
  if l ≠ [] ∧ l.all Char.isDigit then
    some (l.foldl (fun n c => n * 10 + (c.toNat - '0'.toNat)) 0)
  else none

/-- `int(outputs[i]['label'].split('_')[1])`: take the part after the
first underscore and parse it as an integer; `none` models the
`IndexError` (no underscore) or `ValueError` (not an integer). -/
def parseLabelIdx (label : String) : Option Nat :=
  match (pySplitChar '_' label.data).get? 1 with
  | some part => pyInt? part
  | none => none

/-- Lines 124–127 of the source: resolve the technique ID from the label's
class index, look up the display name, and build the reference URL,
attaching all three to the prediction. `none` models the `KeyError` on a
missing class index or technique (fatal per the spec). -/
def enrichOutput (labels : Labels) (o : Output) : Option EnrichedOutput :=
  match parseLabelIdx o.label with
  | none => none
  | some idx =>
    match labels.label_to_technique idx with
    | none => none
    | some technique =>
      match labels.technique_to_name technique with
      | none => none
      | some name =>
        some { label := o.label, score := o.score, technique := technique,
               technique_name := name,
               webpage_link := "https://attack.mitre.org/techniques/" ++ technique ++ "/" }

/-! ### `format_predictions` -/

/-- Modelled from the spec: `constants.chunk_num_sentences`, the fixed
configured number of sentences per chunk used only in the `sentences_#`
display string (the `utils/constants` module is not part of the sources;
the spec gives 3 as its value). -/
def chunk_num_sentences : Nat := 3

/-- The `sentences_#` display string
`f"{i*constants.chunk_num_sentences + 1}-{i*constants.chunk_num_sentences + 3}"`. -/
def sentRange (i : Nat) : String :=
  Nat.repr (i * chunk_num_sentences + 1) ++ "-" ++ Nat.repr (i * chunk_num_sentences + 3)

/-- The model identifier attached to every row. -/
def modelName : String := "distilgpt2-512"

/-- The warning printed when the threshold is relaxed. -/
def warningMsg : String :=
  "The confidence score for all predictions is lower than the confidence threshold. \nResetting confidence threshold to 0.0."

/-- `max([el['score'] for el in outputs])`; `none` models the Python
`ValueError` raised by `max` on an empty sequence. -/
def maxScores : List Output → Option ℚ
  | [] => none
  | o :: rest => some (rest.foldl (fun m x => max m x.score) o.score)

/-- The `inference_dict` of one surviving chunk, fields exactly in the
source's fixed column order (lines 112–122 merged with the reindexing of
lines 137–141): `chunk_#`, `sentences_#`, `threat_intel`,
`processed_threat_intel`, `output`, `model`, `iocs`, `shap_base`,
`shap_contribution`. -/
def assembleRow (i : Nat) (ti_chunk ptxt : String) (eo : EnrichedOutput)
    (ioc : IocDict) (sb : ShapBase) (sc : ShapContribution) : InferenceRow :=
  { chunk_num := i + 1, sentences_num := sentRange i,
    threat_intel := ti_chunk, processed_threat_intel := ptxt,
    output := eo, model := modelName, iocs := ioc,
    shap_base := sb, shap_contribution := sc }

/-- One iteration of the per-chunk loop (lines 108–134) at index `i` with
chunk text `ti_chunk`. Result: `none` models an uncaught exception
(out-of-range subscript, label parse failure, label-map `KeyError`);
`some none` means the chunk was skipped by the confidence filter;
`some (some row)` is the assembled report row. -/
def processChunk (effScore : ℚ) (pdo : ProcessData) (labels : Labels)
    (outputs : List Output) (explain : Explainer) (i : Nat) (ti_chunk : String) :
    Option (Option InferenceRow) :=
  match outputs.get? i with
  | none => none
  | some o =>
    if o.score < effScore then some none
    else
      match pdo.processed_data.get? i with
      | none => none
      | some ptxt =>
        match pdo.iocs.get? i with
        | none => none
        | some ioc =>
          match enrichOutput labels o with
          | none => none
          | some eo =>
            let sr := shapRun explain ti_chunk o.label
            some (some (assembleRow i ti_chunk ptxt eo ioc sr.1 sr.2))

/-- The survival test of the filter at line 109, as seen from outside: the
chunk at index `i` is kept exactly when its prediction's confidence is not
strictly below the effective threshold. -/
def survivesB (effScore : ℚ) (outputs : List Output) (i : Nat) : Bool :=
  match outputs.get? i with
  | some o => decide (effScore ≤ o.score)
  | none => false

/-- The whole per-chunk loop over the enumerated chunks, accumulating the
`inference_list`; `none` models an uncaught exception in any iteration. -/
def buildRows (effScore : ℚ) (pdo : ProcessData) (labels : Labels)
    (outputs : List Output) (explain : Explainer) :
    List (Nat × String) → Option (List InferenceRow)
  | [] => some []
  | ic :: rest =>
    match processChunk effScore pdo labels outputs explain ic.1 ic.2 with
    | none => none
    | some none => buildRows effScore pdo labels outputs explain rest
    | some (some r) =>
      (buildRows effScore pdo labels outputs explain rest).map (fun rs => r :: rs)

/-! ### `transform_list_of_ioc_dicts` -/

/-- The inner merge `super_dict[k] = list(set(super_dict[k] + v))` folded
over one chunk's IOC dict. `List.dedup` stands for `list(set(...))`: the
spec fixes only the resulting set, the iteration order of the underlying
set representation being explicitly unspecified. -/
def mergeIocDict (d : List (String × List String)) (chunk : IocDict) :
    List (String × List String) :=
  chunk.foldl (fun d2 kv => dictInsert d2 kv.1 ((dictGetD d2 kv.1 [] ++ kv.2).dedup)) d

/-- The `super_dict` accumulated over all chunk IOC dicts. -/
def superDict (ioc_dicts : List IocDict) : List (String × List String) :=
  ioc_dicts.foldl mergeIocDict []

/-- `transform_list_of_ioc_dicts`: merge all chunk IOC dicts, then flatten
to one `(IOC_Type, IOC_Value)` row per value, omitting empty value lists.
The source wraps the rows in a DataFrame (an explicitly empty one when
there are no rows); the row list is the model of either. -/
def transform_list_of_ioc_dicts (ioc_dicts : List IocDict) : List (String × String) :=
  (superDict ioc_dicts).flatMap
    (fun kv => if 0 < kv.2.length then kv.2.map (fun v => (kv.1, v)) else [])

/-! ### `format_predictions` assembled -/

/-- The result of `format_predictions`: the configuration as it stands
after the call (the source mutates `configs['score']` in place; the
mutation is modelled by returning the updated record), the warnings
printed, the report rows (`inference_df`), and the IOC table (`iocs_df`). -/
structure FormatResult where
  configs : Configs
  warnings : List String
  inference_df : List InferenceRow
  iocs_df : List (String × String)
  deriving DecidableEq, Repr

/-- Lines 104–106: when the maximum confidence `m` is strictly below the
configured threshold, print the warning and set `configs['score'] = 0.0`;
the result is the configuration as the loop will see it, paired with the
warnings printed. -/
def relaxedConfigs (configs : Configs) (m : ℚ) : Configs × List String :=
  if m < configs.score then ({ configs with score := 0 }, [warningMsg])
  else (configs, [])

/-- `format_predictions` (lines 90–147): compute the maximum confidence
(raising on an empty prediction list), relax the threshold to 0.0 with a
single warning when nothing clears it, run the per-chunk loop, and attach
the aggregated IOC table. `none` models any uncaught Python exception. -/
def format_predictions (configs : Configs) (pdo : ProcessData) (labels : Labels)
    (outputs : List Output) (explain : Explainer) : Option FormatResult :=
  match maxScores outputs with
  | none => none
  | some m =>
    match buildRows (relaxedConfigs configs m).1.score pdo labels outputs explain
        pdo.chunked_data.enum with
    | none => none
    | some rows =>
      some { configs := (relaxedConfigs configs m).1,
             warnings := (relaxedConfigs configs m).2, inference_df := rows,
             iocs_df := transform_list_of_ioc_dicts pdo.iocs }

/-! ### Report row access (`_process_shap_explainability_for_row`) -/

/-- The out-of-range message of `_process_shap_explainability_for_row`. -/
def oobMsg (row_index : Nat) : String :=
  "Index " ++ Nat.repr row_index ++ " is not in the dataframe."

/-- A default row, used only as the `getD` placeholder when stating what a
successful in-range access returns. -/
def defaultRow : InferenceRow :=
  { chunk_num := 0, sentences_num := "", threat_intel := "",
    processed_threat_intel := "", model := "", iocs := [],
    output := { label := "", score := 0, technique := "", technique_name := "",
                webpage_link := "" },
    shap_base := { values := [], base_values := 0, data := [], token_processed := [] },
    shap_contribution := { positive := [], neutral := [], negative := [] } }

/-- Lines 179–192: fetch row `row_index` of the report; an out-of-range
index raises `IndexError(f'Index {row_index} is not in the dataframe.')`,
modelled as `Except.error` carrying that message. -/
def shapRowAccess (inference_df : List InferenceRow) (row_index : Nat) :
    Except String InferenceRow :=
  match inference_df.get? row_index with
  | some r => Except.ok r
  | none => Except.error (oobMsg row_index)

/-! ### Concrete instances (the spec's worked examples), used by witnesses -/

/-- The spec's example label map: class index 3 is technique `T1566`. -/
def exLabels : Labels :=
  { label_to_technique := fun n => if n = 3 then some "T1566" else none,
    technique_to_name := fun t => if t = "T1566" then some "Phishing" else none }

/-- A concrete explainer returning an empty token attribution. -/
def exExplain : Explainer := fun _ _ => ([], 0, [])

/-- Two chunks with their processed texts and (empty) IOC dicts. -/
def exPdo : ProcessData :=
  { chunked_data := ["chunk0", "chunk1"], processed_data := ["p0", "p1"],
    iocs := [[], []] }

/-- The spec's example predictions: `LABEL_3` at 0.92 and `LABEL_1` at 0.10. -/
def exOutputs : List Output :=
  [{ label := "LABEL_3", score := mkRat 92 100 },
   { label := "LABEL_1", score := mkRat 10 100 }]

/-- The enriched row the 0.5-threshold example produces for chunk 0. -/
def exRow0 : InferenceRow :=
  { chunk_num := 1, sentences_num := "1-3", threat_intel := "chunk0",
    processed_threat_intel := "p0",
    output := { label := "LABEL_3", score := mkRat 92 100, technique := "T1566",
                technique_name := "Phishing",
                webpage_link := "https://attack.mitre.org/techniques/T1566/" },
    model := "distilgpt2-512", iocs := [],
    shap_base := { values := [], base_values := 0, data := [], token_processed := [] },
    shap_contribution := { positive := [], neutral := [], negative := [] } }

/-- The row the relaxed-threshold example produces for chunk 1. -/
def exRow1 : InferenceRow :=
  { chunk_num := 2, sentences_num := "4-6", threat_intel := "chunk1",
    processed_threat_intel := "p1",
    output := { label := "LABEL_1", score := mkRat 10 100, technique := "T1059",
                technique_name := "Command and Scripting Interpreter",
                webpage_link := "https://attack.mitre.org/techniques/T1059/" },
    model := "distilgpt2-512", iocs := [],
    shap_base := { values := [], base_values := 0, data := [], token_processed := [] },
    shap_contribution := { positive := [], neutral := [], negative := [] } }

/-- A label map also covering class index 1, for the relaxed example where
chunk 1 survives and is enriched. -/
def exLabels2 : Labels :=
  { label_to_technique := fun n =>
      if n = 3 then some "T1566" else if n = 1 then some "T1059" else none,
    technique_to_name := fun t =>
      if t = "T1566" then some "Phishing"
      else if t = "T1059" then some "Command and Scripting Interpreter" else none }

/-- The spec's example configuration: threshold 0.5. -/
def exCfg : Configs := { score := mkRat 1 2, ti := "doc" }

/-- The spec's relaxed example configuration: threshold 0.95, above every
prediction's confidence. -/
def exCfgHigh : Configs := { score := mkRat 95 100, ti := "doc" }

/-- The full result of the 0.5-threshold example: chunk 0 survives,
chunk 1 is dropped. -/
def exResC4 : FormatResult :=
  { configs := exCfg, warnings := [], inference_df := [exRow0], iocs_df := [] }

/-- The full result of the 0.95-threshold example: the threshold relaxes
to 0, one warning is printed, and both chunks survive. -/
def exResC1 : FormatResult :=
  { configs := { score := 0, ti := "doc" }, warnings := [warningMsg],
    inference_df := [exRow0, exRow1], iocs_df := [] }

/-- A one-chunk input whose prediction is below the threshold while a
second classifier output keeps the maximum above it, so the chunk is
dropped and the report is empty without the threshold relaxing. -/
def exPdoSkip : ProcessData :=
  { chunked_data := ["c0"], processed_data := ["p0"], iocs := [[]] }

/-- The outputs of the skipped-chunk example. -/
def exOutputsSkip : List Output :=
  [{ label := "LABEL_9", score := mkRat 1 10 },
   { label := "LABEL_9", score := mkRat 9 10 }]

/-- The empty-report result of the skipped-chunk example. -/
def exResC7 : FormatResult :=
  { configs := exCfg, warnings := [], inference_df := [], iocs_df := [] }

/-! ## Theorems

First a lemma layer about the Python-dict model, then the claim theorems. -/

theorem mem_keys_iff {α β : Type} [DecidableEq α] (d : List (α × β)) (k : α) :
    k ∈ d.map Prod.fst ↔ ∃ kv ∈ d, kv.1 = k := by
  simp [List.mem_map]

theorem map_fst_updEntries {α β : Type} [DecidableEq α] (k : α) (v : β)
    (d : List (α × β)) : (updEntries k v d).map Prod.fst = d.map Prod.fst := by
  rw [updEntries, List.map_map]
  apply List.map_congr_left
  intro kv _
  by_cases hk : kv.1 = k
  · simp [Function.comp, hk]
  · simp [Function.comp, hk]

theorem map_fst_dictInsert_pos {α β : Type} [DecidableEq α] {d : List (α × β)} {k : α}
    (v : β) (h : k ∈ d.map Prod.fst) :
    (dictInsert d k v).map Prod.fst = d.map Prod.fst := by
  rw [dictInsert, if_pos h, map_fst_updEntries]

theorem map_fst_dictInsert_neg {α β : Type} [DecidableEq α] {d : List (α × β)} {k : α}
    (v : β) (h : k ∉ d.map Prod.fst) :
    (dictInsert d k v).map Prod.fst = d.map Prod.fst ++ [k] := by
  rw [dictInsert, if_neg h, List.map_append]
  rfl

theorem mem_keys_dictInsert {α β : Type} [DecidableEq α] {d : List (α × β)} {k a : α}
    (v : β) : a ∈ (dictInsert d k v).map Prod.fst ↔ a ∈ d.map Prod.fst ∨ a = k := by
  by_cases h : k ∈ d.map Prod.fst
  · rw [map_fst_dictInsert_pos v h]
    constructor
    · exact Or.inl
    · rintro (ha | rfl)
      · exact ha
      · exact h
  · rw [map_fst_dictInsert_neg v h]
    simp [List.mem_append]

theorem nodup_keys_dictInsert {α β : Type} [DecidableEq α] {d : List (α × β)} {k : α}
    (v : β) (h : (d.map Prod.fst).Nodup) :
    ((dictInsert d k v).map Prod.fst).Nodup := by
  by_cases hk : k ∈ d.map Prod.fst
  · rw [map_fst_dictInsert_pos v hk]; exact h
  · rw [map_fst_dictInsert_neg v hk]
    rw [List.nodup_append]
    refine ⟨h, List.nodup_singleton k, ?_⟩
    intro a ha hsk
    rw [List.mem_singleton.mp hsk] at ha
    exact hk ha

theorem mem_of_mem_dictInsert {α β : Type} [DecidableEq α] {d : List (α × β)} {k : α}
    {v : β} {kv : α × β} (h : kv ∈ dictInsert d k v) : kv ∈ d ∨ kv = (k, v) := by
  by_cases hk : k ∈ d.map Prod.fst
  · rw [dictInsert, if_pos hk, updEntries] at h
    rcases List.mem_map.mp h with ⟨a, ha, hae⟩
    by_cases h1 : a.1 = k
    · right; rw [← hae, if_pos h1]
    · left; rw [← hae, if_neg h1]; exact ha
  · rw [dictInsert, if_neg hk] at h
    rcases List.mem_append.mp h with ha | ha
    · exact Or.inl ha
    · exact Or.inr (List.mem_singleton.mp ha)

theorem length_dictInsert_pos {α β : Type} [DecidableEq α] {d : List (α × β)} {k : α}
    (v : β) (h : k ∈ d.map Prod.fst) : (dictInsert d k v).length = d.length := by
  rw [dictInsert, if_pos h, updEntries, List.length_map]

theorem length_dictInsert_neg {α β : Type} [DecidableEq α] {d : List (α × β)} {k : α}
    (v : β) (h : k ∉ d.map Prod.fst) : (dictInsert d k v).length = d.length + 1 := by
  rw [dictInsert, if_neg h, List.length_append, List.length_singleton]

theorem updEntries_cons {α β : Type} [DecidableEq α] (k : α) (v : β) (kv : α × β)
    (rest : List (α × β)) :
    updEntries k v (kv :: rest) =
      (if kv.1 = k then (k, v) else kv) :: updEntries k v rest := rfl

theorem find?_updEntries_ne {α β : Type} [DecidableEq α] {k a : α} (v : β)
    (d : List (α × β)) (h : a ≠ k) :
    (updEntries k v d).find? (fun kv => kv.1 = a) = d.find? (fun kv => kv.1 = a) := by
  induction d with
  | nil => rfl
  | cons kv rest ih =>
    rw [updEntries_cons, List.find?_cons, List.find?_cons]
    by_cases h2 : kv.1 = k
    · rw [if_pos h2]
      have hd1 : (decide ((k, v).1 = a)) = false := by
        simp only [decide_eq_false_iff_not]
        exact fun he => h (he.symm)
      have hd2 : (decide (kv.1 = a)) = false := by
        simp only [decide_eq_false_iff_not]
        rw [h2]
        exact fun he => h (he.symm)
      rw [hd1, hd2]
      exact ih
    · rw [if_neg h2]
      cases hd : decide (kv.1 = a) with
      | true => rfl
      | false => exact ih

theorem find?_updEntries_eq {α β : Type} [DecidableEq α] {k : α} {d : List (α × β)}
    (v : β) (hk : k ∈ d.map Prod.fst) :
    (updEntries k v d).find? (fun kv => kv.1 = k) = some (k, v) := by
  induction d with
  | nil => simp at hk
  | cons kv rest ih =>
    rw [updEntries_cons, List.find?_cons]
    by_cases h1 : kv.1 = k
    · rw [if_pos h1]
      have hd : (decide ((k, v).1 = k)) = true := by simp
      rw [hd]
    · rw [if_neg h1]
      have hd : (decide (kv.1 = k)) = false := by
        simp only [decide_eq_false_iff_not]
        exact h1
      rw [hd]
      have hk' : k ∈ rest.map Prod.fst := by
        rcases List.mem_map.mp hk with ⟨a, ha, hae⟩
        rcases List.mem_cons.mp ha with rfl | ha'
        · exact absurd hae h1
        · exact List.mem_map.mpr ⟨a, ha', hae⟩
      exact ih hk'

theorem dictGetD_dictInsert {α β : Type} [DecidableEq α] (d : List (α × β)) (k a : α)
    (v : β) (dflt : β) :
    dictGetD (dictInsert d k v) a dflt = if a = k then v else dictGetD d a dflt := by
  by_cases hk : k ∈ d.map Prod.fst
  · rw [dictInsert, if_pos hk]
    by_cases hak : a = k
    · subst hak
      rw [dictGetD, find?_updEntries_eq v hk, if_pos rfl]
    · rw [dictGetD, find?_updEntries_ne v d hak, if_neg hak, dictGetD]
  · rw [dictInsert, if_neg hk]
    by_cases hak : a = k
    · subst hak
      have hfd : d.find? (fun kv => kv.1 = a) = none := by
        rw [List.find?_eq_none]
        intro kv hkv hp
        exact hk (List.mem_map.mpr ⟨kv, hkv, by simpa using hp⟩)
      rw [dictGetD, List.find?_append, hfd, if_pos rfl]
      have hd : (decide ((a, v).1 = a)) = true := by simp
      rw [List.find?_cons, hd]
      rfl
    · rw [dictGetD, List.find?_append, if_neg hak]
      have hd : (decide ((k, v).1 = a)) = false := by
        simp only [decide_eq_false_iff_not]
        exact fun he => hak he.symm
      have h2 : ([(k, v)].find? (fun kv => kv.1 = a)) = none := by
        rw [List.find?_cons, hd]
        rfl
      rw [h2, Option.or_none, dictGetD]

/-! ### `dictOfPairs` lemmas (the `dict(zip(...))` bucket construction) -/

theorem foldl_dictInsert_mem {α β : Type} [DecidableEq α] :
    ∀ (l d : List (α × β)) (kv : α × β),
      kv ∈ l.foldl (fun d2 p => dictInsert d2 p.1 p.2) d → kv ∈ d ∨ kv ∈ l
  | [], _, _, h => Or.inl h
  | p :: rest, d, kv, h => by
    rcases foldl_dictInsert_mem rest (dictInsert d p.1 p.2) kv h with h1 | h1
    · rcases mem_of_mem_dictInsert h1 with h2 | h2
      · exact Or.inl h2
      · right
        rw [h2]
        exact List.mem_cons.mpr (Or.inl Prod.mk.eta.symm)
    · exact Or.inr (List.mem_cons_of_mem _ h1)

theorem mem_of_mem_dictOfPairs {α β : Type} [DecidableEq α] {l : List (α × β)}
    {kv : α × β} (h : kv ∈ dictOfPairs l) : kv ∈ l := by
  rcases foldl_dictInsert_mem l [] kv h with h1 | h1
  · simp at h1
  · exact h1

theorem mem_keys_foldl_dictInsert {α β : Type} [DecidableEq α] :
    ∀ (l d : List (α × β)) (a : α),
      (a ∈ (l.foldl (fun d2 p => dictInsert d2 p.1 p.2) d).map Prod.fst ↔
        a ∈ d.map Prod.fst ∨ a ∈ l.map Prod.fst)
  | [], _, _ => by simp
  | p :: rest, d, a => by
    rw [List.foldl_cons, mem_keys_foldl_dictInsert rest (dictInsert d p.1 p.2) a,
      mem_keys_dictInsert, List.map_cons, List.mem_cons]
    tauto

theorem mem_keys_dictOfPairs {α β : Type} [DecidableEq α] (l : List (α × β)) (a : α) :
    a ∈ (dictOfPairs l).map Prod.fst ↔ a ∈ l.map Prod.fst := by
  rw [dictOfPairs, mem_keys_foldl_dictInsert]
  simp

theorem nodup_keys_foldl_dictInsert {α β : Type} [DecidableEq α] :
    ∀ (l d : List (α × β)), (d.map Prod.fst).Nodup →
      ((l.foldl (fun d2 p => dictInsert d2 p.1 p.2) d).map Prod.fst).Nodup
  | [], _, h => h
  | p :: rest, d, h =>
    nodup_keys_foldl_dictInsert rest (dictInsert d p.1 p.2) (nodup_keys_dictInsert _ h)

theorem nodup_keys_dictOfPairs {α β : Type} [DecidableEq α] (l : List (α × β)) :
    ((dictOfPairs l).map Prod.fst).Nodup :=
  nodup_keys_foldl_dictInsert l [] (by simp)

theorem toFinset_keys_dictInsert {α β : Type} [DecidableEq α] (d : List (α × β))
    (k : α) (v : β) :
    ((dictInsert d k v).map Prod.fst).toFinset = insert k (d.map Prod.fst).toFinset := by
  by_cases hp : k ∈ d.map Prod.fst
  · rw [map_fst_dictInsert_pos _ hp,
      Finset.insert_eq_self.mpr (List.mem_toFinset.mpr hp)]
  · rw [map_fst_dictInsert_neg _ hp, List.toFinset_append]
    have h1 : ([k] : List α).toFinset = {k} := by simp
    rw [h1, Finset.union_comm]
    rfl

theorem length_foldl_dictInsert {α β : Type} [DecidableEq α] :
    ∀ (l d : List (α × β)), (d.map Prod.fst).Nodup →
      (l.foldl (fun d2 p => dictInsert d2 p.1 p.2) d).length =
        ((d.map Prod.fst).toFinset ∪ (l.map Prod.fst).toFinset).card
  | [], d, h => by
    simp [List.toFinset_card_of_nodup h]
  | p :: rest, d, h => by
    rw [List.foldl_cons,
      length_foldl_dictInsert rest (dictInsert d p.1 p.2) (nodup_keys_dictInsert _ h),
      toFinset_keys_dictInsert, List.map_cons, List.toFinset_cons,
      Finset.insert_union, Finset.union_insert]

theorem length_dictOfPairs {α β : Type} [DecidableEq α] (l : List (α × β)) :
    (dictOfPairs l).length = (l.map Prod.fst).toFinset.card := by
  rw [dictOfPairs, length_foldl_dictInsert l [] (by simp)]
  simp

/-! ### `ShapPipeline.go` lemmas and claim C3 -/

theorem shapGo_positive (values : List ℚ) (b : ℚ) (data : List String) :
    (shapGo values b data).2.positive =
      dictOfPairs ((pairsOf values data).filter (fun p => 0 < p.2)) := rfl

theorem shapGo_neutral (values : List ℚ) (b : ℚ) (data : List String) :
    (shapGo values b data).2.neutral =
      dictOfPairs ((pairsOf values data).filter (fun p => p.2 = 0)) := rfl

theorem shapGo_negative (values : List ℚ) (b : ℚ) (data : List String) :
    (shapGo values b data).2.negative =
      dictOfPairs ((pairsOf values data).filter (fun p => p.2 < 0)) := rfl

theorem shapGo_token_processed (values : List ℚ) (b : ℚ) (data : List String) :
    (shapGo values b data).1.token_processed = data.map procToken := rfl

theorem exists_pair_of_mem_left {α β : Type} :
    ∀ (l1 : List α) (l2 : List β), l1.length = l2.length →
      ∀ t ∈ l1, ∃ v, (t, v) ∈ l1.zip l2
  | [], _, _, t, ht => absurd ht (List.not_mem_nil t)
  | _ :: _, [], h, _, _ => by simp at h
  | a :: l1, b :: l2, h, t, ht => by
    rw [List.zip_cons_cons]
    rcases List.mem_cons.mp ht with rfl | ht'
    · exact ⟨b, List.mem_cons.mpr (Or.inl rfl)⟩
    · have h' : l1.length = l2.length := by simpa using h
      rcases exists_pair_of_mem_left l1 l2 h' t ht' with ⟨v, hv⟩
      exact ⟨v, List.mem_cons_of_mem _ hv⟩

/-- C3 counterexample: on tokens `["a", "a"]` with contributions `1` and
`-1`, the token `"a"` lands in both the positive and the negative bucket
mapping, so it does not appear in exactly one of the three mappings, and
the bucket sizes sum to 2 while there is only 1 distinct token string. -/
theorem shap_buckets_mixed_sign_token_counterexample :
    "a" ∈ (shapGo [1, -1] 0 ["a", "a"]).2.positive.map Prod.fst ∧
    "a" ∈ (shapGo [1, -1] 0 ["a", "a"]).2.negative.map Prod.fst ∧
    (shapGo [1, -1] 0 ["a", "a"]).2.positive.length +
        (shapGo [1, -1] 0 ["a", "a"]).2.neutral.length +
        (shapGo [1, -1] 0 ["a", "a"]).2.negative.length = 2 ∧
    (shapGo [1, -1] 0 ["a", "a"]).1.token_processed.dedup.length = 1 := by
  decide

/-- C3 (amended): every value in `positive` is > 0, in `neutral` is == 0,
in `negative` is < 0; every token appears in at least one of the three
mappings; and `|positive| + |neutral| + |negative|` equals the number of
distinct token strings counted once per sign class in which the token has
at least one contribution (a token contributing with two different signs
is counted in both classes, as the counterexample forces). -/
theorem shap_partition_amended (values : List ℚ) (b : ℚ) (data : List String)
    (hlen : values.length = data.length) :
    (∀ kv ∈ (shapGo values b data).2.positive, 0 < kv.2) ∧
    (∀ kv ∈ (shapGo values b data).2.neutral, kv.2 = 0) ∧
    (∀ kv ∈ (shapGo values b data).2.negative, kv.2 < 0) ∧
    (∀ t ∈ (shapGo values b data).1.token_processed,
      t ∈ (shapGo values b data).2.positive.map Prod.fst ∨
        t ∈ (shapGo values b data).2.neutral.map Prod.fst ∨
        t ∈ (shapGo values b data).2.negative.map Prod.fst) ∧
    (shapGo values b data).2.positive.length +
        (shapGo values b data).2.neutral.length +
        (shapGo values b data).2.negative.length =
      (((pairsOf values data).filter (fun p => 0 < p.2)).map Prod.fst).toFinset.card +
        (((pairsOf values data).filter (fun p => p.2 = 0)).map Prod.fst).toFinset.card +
        (((pairsOf values data).filter (fun p => p.2 < 0)).map Prod.fst).toFinset.card := by
  refine ⟨?_, ?_, ?_, ?_, ?_⟩
  · intro kv h
    rw [shapGo_positive] at h
    have h1 := List.mem_filter.mp (mem_of_mem_dictOfPairs h)
    exact of_decide_eq_true h1.2
  · intro kv h
    rw [shapGo_neutral] at h
    have h1 := List.mem_filter.mp (mem_of_mem_dictOfPairs h)
    exact of_decide_eq_true h1.2
  · intro kv h
    rw [shapGo_negative] at h
    have h1 := List.mem_filter.mp (mem_of_mem_dictOfPairs h)
    exact of_decide_eq_true h1.2
  · intro t ht
    rw [shapGo_token_processed] at ht
    have hlen' : (data.map procToken).length = (values.map round5).length := by
      rw [List.length_map, List.length_map, hlen]
    rcases exists_pair_of_mem_left _ _ hlen' t ht with ⟨v, hv⟩
    rcases lt_trichotomy 0 v with hgt | heq | hlt
    · left
      rw [shapGo_positive, mem_keys_dictOfPairs]
      exact List.mem_map.mpr
        ⟨(t, v), List.mem_filter.mpr ⟨hv, decide_eq_true hgt⟩, rfl⟩
    · right; left
      rw [shapGo_neutral, mem_keys_dictOfPairs]
      exact List.mem_map.mpr
        ⟨(t, v), List.mem_filter.mpr ⟨hv, decide_eq_true heq.symm⟩, rfl⟩
    · right; right
      rw [shapGo_negative, mem_keys_dictOfPairs]
      exact List.mem_map.mpr
        ⟨(t, v), List.mem_filter.mpr ⟨hv, decide_eq_true hlt⟩, rfl⟩
  · rw [shapGo_positive, shapGo_neutral, shapGo_negative,
      length_dictOfPairs, length_dictOfPairs, length_dictOfPairs]

/-- Witness for C3 (amended) at a concrete mixed-sign input. -/
theorem shap_partition_amended_witness :
    ([(1 : ℚ), -1, 0].length = (["a", "b", "c"] : List String).length) ∧
    (shapGo [1, -1, 0] 0 ["a", "b", "c"]).2.positive.length +
        (shapGo [1, -1, 0] 0 ["a", "b", "c"]).2.neutral.length +
        (shapGo [1, -1, 0] 0 ["a", "b", "c"]).2.negative.length =
      (((pairsOf [1, -1, 0] ["a", "b", "c"]).filter
          (fun p => 0 < p.2)).map Prod.fst).toFinset.card +
        (((pairsOf [1, -1, 0] ["a", "b", "c"]).filter
          (fun p => p.2 = 0)).map Prod.fst).toFinset.card +
        (((pairsOf [1, -1, 0] ["a", "b", "c"]).filter
          (fun p => p.2 < 0)).map Prod.fst).toFinset.card :=
  ⟨by decide, (shap_partition_amended [1, -1, 0] 0 ["a", "b", "c"] (by decide)).2.2.2.2⟩

/-! ### IOC aggregation lemmas (claims C6 and C8) -/

theorem mergeIocDict_cons (d : List (String × List String)) (kw : String × List String)
    (rest : IocDict) :
    mergeIocDict d (kw :: rest) =
      mergeIocDict (dictInsert d kw.1 ((dictGetD d kw.1 [] ++ kw.2).dedup)) rest := rfl

theorem mem_dictGetD_mergeIocDict :
    ∀ (chunk : IocDict) (d : List (String × List String)) (t v : String),
      (v ∈ dictGetD (mergeIocDict d chunk) t [] ↔
        v ∈ dictGetD d t [] ∨ ∃ vs, (t, vs) ∈ chunk ∧ v ∈ vs)
  | [], d, t, v => by simp [mergeIocDict]
  | kw :: rest, d, t, v => by
    obtain ⟨k, w⟩ := kw
    rw [mergeIocDict_cons, mem_dictGetD_mergeIocDict rest _ t v, dictGetD_dictInsert]
    by_cases ht : t = k
    · subst ht
      rw [if_pos rfl]
      simp only [List.mem_dedup, List.mem_append, List.mem_cons, Prod.mk.injEq]
      constructor
      · rintro ((hd | hw) | ⟨vs, hvs, hv⟩)
        · exact Or.inl hd
        · exact Or.inr ⟨w, Or.inl ⟨trivial, rfl⟩, hw⟩
        · exact Or.inr ⟨vs, Or.inr hvs, hv⟩
      · rintro (hd | ⟨vs, (⟨-, rfl⟩ | hvs), hv⟩)
        · exact Or.inl (Or.inl hd)
        · exact Or.inl (Or.inr hv)
        · exact Or.inr ⟨vs, hvs, hv⟩
    · rw [if_neg ht]
      simp only [List.mem_cons, Prod.mk.injEq]
      constructor
      · rintro (hd | ⟨vs, hvs, hv⟩)
        · exact Or.inl hd
        · exact Or.inr ⟨vs, Or.inr hvs, hv⟩
      · rintro (hd | ⟨vs, (⟨hte, -⟩ | hvs), hv⟩)
        · exact Or.inl hd
        · exact absurd hte ht
        · exact Or.inr ⟨vs, hvs, hv⟩

theorem mem_dictGetD_foldl_merge :
    ∀ (ds : List IocDict) (d0 : List (String × List String)) (t v : String),
      (v ∈ dictGetD (ds.foldl mergeIocDict d0) t [] ↔
        v ∈ dictGetD d0 t [] ∨ ∃ d ∈ ds, ∃ vs, (t, vs) ∈ d ∧ v ∈ vs)
  | [], d0, t, v => by simp
  | c :: rest, d0, t, v => by
    rw [List.foldl_cons, mem_dictGetD_foldl_merge rest _ t v,
      mem_dictGetD_mergeIocDict]
    simp only [List.mem_cons]
    constructor
    · rintro ((hd | hc) | ⟨d, hd, hin⟩)
      · exact Or.inl hd
      · exact Or.inr ⟨c, Or.inl rfl, hc⟩
      · exact Or.inr ⟨d, Or.inr hd, hin⟩
    · rintro (hd | ⟨d, (rfl | hd), hin⟩)
      · exact Or.inl (Or.inl hd)
      · exact Or.inl (Or.inr hin)
      · exact Or.inr ⟨d, hd, hin⟩

theorem mem_dictGetD_superDict (ds : List IocDict) (t v : String) :
    v ∈ dictGetD (superDict ds) t [] ↔ ∃ d ∈ ds, ∃ vs, (t, vs) ∈ d ∧ v ∈ vs := by
  rw [superDict, mem_dictGetD_foldl_merge]
  simp [dictGetD]

theorem nodup_keys_mergeIocDict :
    ∀ (chunk : IocDict) (d : List (String × List String)),
      (d.map Prod.fst).Nodup → ((mergeIocDict d chunk).map Prod.fst).Nodup
  | [], _, h => h
  | kw :: rest, d, h => by
    rw [mergeIocDict_cons]
    exact nodup_keys_mergeIocDict rest _ (nodup_keys_dictInsert _ h)

theorem nodup_keys_superDict (ds : List IocDict) :
    ((superDict ds).map Prod.fst).Nodup := by
  rw [superDict]
  have : ∀ (l : List IocDict) (d0 : List (String × List String)),
      (d0.map Prod.fst).Nodup → ((l.foldl mergeIocDict d0).map Prod.fst).Nodup := by
    intro l
    induction l with
    | nil => exact fun d0 h => h
    | cons c rest ih =>
      intro d0 h
      rw [List.foldl_cons]
      exact ih _ (nodup_keys_mergeIocDict c d0 h)
  exact this ds [] (by simp)

theorem nodup_values_mergeIocDict :
    ∀ (chunk : IocDict) (d : List (String × List String)),
      (∀ kv ∈ d, kv.2.Nodup) → ∀ kv ∈ mergeIocDict d chunk, kv.2.Nodup
  | [], _, h => h
  | kw :: rest, d, h => by
    rw [mergeIocDict_cons]
    apply nodup_values_mergeIocDict rest
    intro kv hkv
    rcases mem_of_mem_dictInsert hkv with h1 | h1
    · exact h kv h1
    · rw [h1]
      exact List.nodup_dedup _

theorem nodup_values_superDict (ds : List IocDict) :
    ∀ kv ∈ superDict ds, kv.2.Nodup := by
  rw [superDict]
  have : ∀ (l : List IocDict) (d0 : List (String × List String)),
      (∀ kv ∈ d0, kv.2.Nodup) → ∀ kv ∈ l.foldl mergeIocDict d0, kv.2.Nodup := by
    intro l
    induction l with
    | nil => exact fun d0 h => h
    | cons c rest ih =>
      intro d0 h
      rw [List.foldl_cons]
      exact ih _ (nodup_values_mergeIocDict c d0 h)
  exact this ds [] (by simp)

theorem dictGetD_of_mem {α β : Type} [DecidableEq α] :
    ∀ (d : List (α × β)), (d.map Prod.fst).Nodup →
      ∀ {t : α} {vs : β} (dflt : β), (t, vs) ∈ d → dictGetD d t dflt = vs
  | [], _, _, _, _, h => absurd h (List.not_mem_nil _)
  | kv :: rest, hnd, t, vs, dflt, h => by
    rcases List.mem_cons.mp h with h1 | h1
    · rw [dictGetD, List.find?_cons]
      have hd : (decide (kv.1 = t)) = true := by
        rw [← h1]
        simp
      rw [hd, ← h1]
    · have hnd' : (kv.1 :: rest.map Prod.fst).Nodup := by
        rw [List.map_cons] at hnd
        exact hnd
      have hkeys := List.nodup_cons.mp hnd'
      have hne : ¬ kv.1 = t := by
        intro he
        exact hkeys.1 (he ▸ List.mem_map.mpr ⟨(t, vs), h1, rfl⟩)
      rw [dictGetD, List.find?_cons]
      have hd : (decide (kv.1 = t)) = false := by
        simp only [decide_eq_false_iff_not]
        exact hne
      rw [hd]
      exact dictGetD_of_mem rest hkeys.2 dflt h1

theorem row_fst_of_mem {kv : String × List String} {x : String × String}
    (h : x ∈ (if 0 < kv.2.length then kv.2.map (fun v => (kv.1, v)) else [])) :
    x.1 = kv.1 := by
  by_cases hlen : 0 < kv.2.length
  · rw [if_pos hlen] at h
    rcases List.mem_map.mp h with ⟨w, _, he⟩
    rw [← he]
  · rw [if_neg hlen] at h
    exact absurd h (List.not_mem_nil x)

theorem mem_transform_iff (ds : List IocDict) (t v : String) :
    (t, v) ∈ transform_list_of_ioc_dicts ds ↔
      ∃ d ∈ ds, ∃ vs, (t, vs) ∈ d ∧ v ∈ vs := by
  rw [transform_list_of_ioc_dicts, List.mem_flatMap]
  constructor
  · rintro ⟨kv, hkv, hm⟩
    have hfst : (t, v).1 = kv.1 := row_fst_of_mem hm
    by_cases hlen : 0 < kv.2.length
    · rw [if_pos hlen] at hm
      rcases List.mem_map.mp hm with ⟨w, hw, he⟩
      have hv : v ∈ kv.2 := by
        have : w = v := congrArg Prod.snd he
        rw [← this]
        exact hw
      have hg : dictGetD (superDict ds) t [] = kv.2 := by
        apply dictGetD_of_mem _ (nodup_keys_superDict ds)
        have : (t, kv.2) = kv := by
          rw [Prod.ext_iff]
          exact ⟨hfst, rfl⟩
        rw [this]
        exact hkv
      exact (mem_dictGetD_superDict ds t v).mp (hg ▸ hv)
    · rw [if_neg hlen] at hm
      exact absurd hm (List.not_mem_nil _)
  · intro h
    have hv : v ∈ dictGetD (superDict ds) t [] := (mem_dictGetD_superDict ds t v).mpr h
    cases hfd : (superDict ds).find? (fun kv => kv.1 = t) with
    | none =>
      rw [dictGetD, hfd] at hv
      exact absurd hv (List.not_mem_nil _)
    | some kv =>
      rw [dictGetD, hfd] at hv
      have hmem := List.mem_of_find?_eq_some hfd
      have hkey : kv.1 = t := by simpa using List.find?_some hfd
      refine ⟨kv, hmem, ?_⟩
      rw [if_pos (List.length_pos_of_mem hv)]
      exact List.mem_map.mpr ⟨v, hv, by rw [hkey]⟩

theorem nodup_transform (ds : List IocDict) :
    (transform_list_of_ioc_dicts ds).Nodup := by
  rw [transform_list_of_ioc_dicts, List.nodup_flatMap]
  constructor
  · intro kv _
    by_cases hlen : 0 < kv.2.length
    · rw [if_pos hlen]
      refine List.Nodup.map ?_ (nodup_values_superDict ds kv (by assumption))
      intro a b hab
      exact congrArg Prod.snd hab
    · rw [if_neg hlen]
      exact List.nodup_nil
  · have hpw : List.Pairwise (fun a b : String × List String => a.1 ≠ b.1)
        (superDict ds) := List.pairwise_map.mp (nodup_keys_superDict ds)
    refine hpw.imp ?_
    intro a b hne x hxa hxb
    exact hne ((row_fst_of_mem hxa).symm.trans (row_fst_of_mem hxb))

/-- C6: the aggregate IOC table has a row for exactly the `(type, value)`
pairs occurring in some chunk's IOC dict (union with exact-string
deduplication, types with no values omitted); each such pair appears
exactly once (`Nodup`); and the table is the explicitly empty list exactly
when no IOC value exists in any chunk. -/
theorem ioc_table_exactly_one_row_per_pair (ioc_dicts : List IocDict) :
    (∀ t v, (t, v) ∈ transform_list_of_ioc_dicts ioc_dicts ↔
      ∃ d ∈ ioc_dicts, ∃ vs, (t, vs) ∈ d ∧ v ∈ vs) ∧
    (transform_list_of_ioc_dicts ioc_dicts).Nodup ∧
    (transform_list_of_ioc_dicts ioc_dicts = [] ↔
      ∀ d ∈ ioc_dicts, ∀ kv ∈ d, kv.2 = ([] : List String)) := by
  refine ⟨fun t v => mem_transform_iff ioc_dicts t v, nodup_transform ioc_dicts, ?_, ?_⟩
  · intro hnil d hd kv hkv
    cases hcs : kv.2 with
    | nil => rfl
    | cons w ws =>
      have hmem : (kv.1, w) ∈ transform_list_of_ioc_dicts ioc_dicts := by
        rw [mem_transform_iff]
        refine ⟨d, hd, kv.2, by rw [Prod.mk.eta]; exact hkv, ?_⟩
        rw [hcs]
        exact List.mem_cons.mpr (Or.inl rfl)
      rw [hnil] at hmem
      exact absurd hmem (List.not_mem_nil _)
  · intro hall
    rw [List.eq_nil_iff_forall_not_mem]
    rintro ⟨t, v⟩ hmem
    rw [mem_transform_iff] at hmem
    rcases hmem with ⟨d, hd, vs, hvs, hv⟩
    have : vs = [] := hall d hd (t, vs) hvs
    rw [this] at hv
    exact absurd hv (List.not_mem_nil _)

/-- C8: aggregating the aggregate's rows again, reshaped as single-chunk
IOC dicts `{type: [value]}`, yields the same set of `(type, value)` rows. -/
theorem ioc_aggregation_idempotent (ioc_dicts : List IocDict) (p : String × String) :
    (p ∈ transform_list_of_ioc_dicts
        ((transform_list_of_ioc_dicts ioc_dicts).map (fun q => [(q.1, [q.2])])) ↔
      p ∈ transform_list_of_ioc_dicts ioc_dicts) := by
  obtain ⟨t, v⟩ := p
  rw [mem_transform_iff]
  constructor
  · rintro ⟨d, hd, vs, hvs, hv⟩
    rcases List.mem_map.mp hd with ⟨q, hq, he⟩
    rw [← he] at hvs
    have h1 := List.mem_singleton.mp hvs
    have ht : t = q.1 := congrArg Prod.fst h1
    have hvs2 : vs = [q.2] := congrArg Prod.snd h1
    rw [hvs2] at hv
    have hv2 : v = q.2 := List.mem_singleton.mp hv
    have : (t, v) = q := by
      rw [Prod.ext_iff]
      exact ⟨ht, hv2⟩
    rw [this]
    exact hq
  · intro h
    exact ⟨[(t, [v])], List.mem_map.mpr ⟨(t, v), h, rfl⟩, [v],
      List.mem_singleton.mpr rfl, List.mem_singleton.mpr rfl⟩

/-! ### `format_predictions` lemmas -/

section FormatLemmas

variable (effScore : ℚ) (pdo : ProcessData) (labels : Labels) (outputs : List Output)
  (explain : Explainer)

theorem processChunk_skip_iff (i : Nat) (c : String) :
    processChunk effScore pdo labels outputs explain i c = some none ↔
      ∃ o, outputs.get? i = some o ∧ o.score < effScore := by
  constructor
  · intro h
    unfold processChunk at h
    split at h
    · exact absurd h (by simp)
    next o ho =>
      split at h
      next hs => exact ⟨o, ho, hs⟩
      next hs =>
        exfalso
        split at h
        · exact absurd h (by simp)
        next ptxt hp =>
          split at h
          · exact absurd h (by simp)
          next ioc hio =>
            split at h
            · exact absurd h (by simp)
            next eo heo => simp at h
  · rintro ⟨o, ho, hs⟩
    unfold processChunk
    rw [ho]
    simp only [if_pos hs]

theorem processChunk_some_row {i : Nat} {c : String} {r : InferenceRow}
    (h : processChunk effScore pdo labels outputs explain i c = some (some r)) :
    ∃ o ptxt ioc eo, outputs.get? i = some o ∧ ¬ o.score < effScore ∧
      pdo.processed_data.get? i = some ptxt ∧ pdo.iocs.get? i = some ioc ∧
      enrichOutput labels o = some eo ∧
      r = assembleRow i c ptxt eo ioc (shapRun explain c o.label).1
        (shapRun explain c o.label).2 := by
  unfold processChunk at h
  split at h
  · exact absurd h (by simp)
  next o ho =>
    split at h
    next hs => exact absurd h (by simp)
    next hs =>
      split at h
      · exact absurd h (by simp)
      next ptxt hp =>
        split at h
        · exact absurd h (by simp)
        next ioc hio =>
          split at h
          · exact absurd h (by simp)
          next eo heo =>
            refine ⟨o, ptxt, ioc, eo, ho, hs, hp, hio, heo, ?_⟩
            have h2 : some (some (assembleRow i c ptxt eo ioc
                (shapRun explain c o.label).1 (shapRun explain c o.label).2)) =
                some (some r) := h
            exact (Option.some.inj (Option.some.inj h2)).symm

theorem survivesB_eq_false_of {i : Nat} {o : Output}
    (ho : outputs.get? i = some o) (hs : o.score < effScore) :
    survivesB effScore outputs i = false := by
  unfold survivesB
  rw [ho]
  simp [not_le.mpr hs]

theorem survivesB_eq_true_of {i : Nat} {o : Output}
    (ho : outputs.get? i = some o) (hs : ¬ o.score < effScore) :
    survivesB effScore outputs i = true := by
  unfold survivesB
  rw [ho]
  simp [not_lt.mp hs]

theorem buildRows_cons (ic : Nat × String) (rest : List (Nat × String)) :
    buildRows effScore pdo labels outputs explain (ic :: rest) =
      match processChunk effScore pdo labels outputs explain ic.1 ic.2 with
      | none => none
      | some none => buildRows effScore pdo labels outputs explain rest
      | some (some r) =>
        (buildRows effScore pdo labels outputs explain rest).map
          (fun rs => r :: rs) := rfl

theorem buildRows_eq_filterMap :
    ∀ (l : List (Nat × String)) (rows : List InferenceRow),
      buildRows effScore pdo labels outputs explain l = some rows →
      rows = l.filterMap (fun ic =>
        (processChunk effScore pdo labels outputs explain ic.1 ic.2).getD none)
  | [], rows, h => by
    have h1 : rows = [] := (Option.some.inj h).symm
    rw [h1]
    rfl
  | ic :: rest, rows, h => by
    rw [buildRows_cons] at h
    cases hpc : processChunk effScore pdo labels outputs explain ic.1 ic.2 with
    | none =>
      rw [hpc] at h
      exact absurd h (by simp)
    | some orow =>
      cases orow with
      | none =>
        rw [hpc] at h
        have ih := buildRows_eq_filterMap rest rows h
        rw [ih]
        simp [List.filterMap_cons, hpc]
      | some r =>
        rw [hpc] at h
        rcases Option.map_eq_some'.mp h with ⟨rs, hrs, hrows⟩
        have ih := buildRows_eq_filterMap rest rs hrs
        rw [← hrows, ih]
        simp [List.filterMap_cons, hpc]

theorem buildRows_no_err :
    ∀ (l : List (Nat × String)) (rows : List InferenceRow),
      buildRows effScore pdo labels outputs explain l = some rows →
      ∀ ic ∈ l, processChunk effScore pdo labels outputs explain ic.1 ic.2 ≠ none
  | [], _, _, ic, hic => absurd hic (List.not_mem_nil ic)
  | ic0 :: rest, rows, h, ic, hic => by
    rw [buildRows_cons] at h
    cases hpc : processChunk effScore pdo labels outputs explain ic0.1 ic0.2 with
    | none =>
      rw [hpc] at h
      exact absurd h (by simp)
    | some orow =>
      rcases List.mem_cons.mp hic with rfl | hic'
      · rw [hpc]
        simp
      · cases orow with
        | none =>
          rw [hpc] at h
          exact buildRows_no_err rest rows h ic hic'
        | some r =>
          rw [hpc] at h
          rcases Option.map_eq_some'.mp h with ⟨rs, hrs, _⟩
          exact buildRows_no_err rest rs hrs ic hic'

theorem buildRows_map_chunkNum :
    ∀ (l : List (Nat × String)) (rows : List InferenceRow),
      buildRows effScore pdo labels outputs explain l = some rows →
      rows.map (fun r => r.chunk_num) =
        (l.filter (fun ic => survivesB effScore outputs ic.1)).map
          (fun ic => ic.1 + 1)
  | [], rows, h => by
    have h1 : rows = [] := (Option.some.inj h).symm
    rw [h1]
    rfl
  | ic :: rest, rows, h => by
    rw [buildRows_cons] at h
    cases hpc : processChunk effScore pdo labels outputs explain ic.1 ic.2 with
    | none =>
      rw [hpc] at h
      exact absurd h (by simp)
    | some orow =>
      cases orow with
      | none =>
        rw [hpc] at h
        rcases (processChunk_skip_iff effScore pdo labels outputs explain
          ic.1 ic.2).mp hpc with ⟨o, ho, hs⟩
        have hsv := survivesB_eq_false_of effScore outputs ho hs
        rw [List.filter_cons, hsv]
        simpa using buildRows_map_chunkNum rest rows h
      | some r =>
        rw [hpc] at h
        rcases Option.map_eq_some'.mp h with ⟨rs, hrs, hrows⟩
        rcases processChunk_some_row effScore pdo labels outputs explain hpc with
          ⟨o, ptxt, ioc, eo, ho, hs, _, _, _, hr⟩
        have hsv := survivesB_eq_true_of effScore outputs ho hs
        rw [← hrows, List.filter_cons, hsv]
        have ih := buildRows_map_chunkNum rest rs hrs
        simp only [List.map_cons, ih, if_pos]
        rw [hr]
        rfl

end FormatLemmas

theorem length_filterMap_all_some {α β : Type} (f : α → Option β) :
    ∀ l : List α, (∀ a ∈ l, ∃ b, f a = some b) → (l.filterMap f).length = l.length
  | [], _ => rfl
  | a :: l, h => by
    rcases h a (List.mem_cons.mpr (Or.inl rfl)) with ⟨b, hb⟩
    simp only [List.filterMap_cons, hb, List.length_cons]
    rw [length_filterMap_all_some f l (fun x hx => h x (List.mem_cons.mpr (Or.inr hx)))]

theorem relaxedConfigs_pos {configs : Configs} {m : ℚ} (h : m < configs.score) :
    relaxedConfigs configs m = ({ configs with score := 0 }, [warningMsg]) := by
  rw [relaxedConfigs, if_pos h]

theorem relaxedConfigs_neg {configs : Configs} {m : ℚ} (h : ¬ m < configs.score) :
    relaxedConfigs configs m = (configs, []) := by
  rw [relaxedConfigs, if_neg h]

theorem format_predictions_inv {configs : Configs} {pdo : ProcessData} {labels : Labels}
    {outputs : List Output} {explain : Explainer} {res : FormatResult}
    (hs : format_predictions configs pdo labels outputs explain = some res) :
    ∃ m, maxScores outputs = some m ∧
      res.configs = (relaxedConfigs configs m).1 ∧
      res.warnings = (relaxedConfigs configs m).2 ∧
      buildRows (relaxedConfigs configs m).1.score pdo labels outputs explain
        pdo.chunked_data.enum = some res.inference_df ∧
      res.iocs_df = transform_list_of_ioc_dicts pdo.iocs := by
  unfold format_predictions at hs
  split at hs
  · exact absurd hs (by simp)
  next m hm =>
    split at hs
    · exact absurd hs (by simp)
    next rows hb =>
      have hres := (Option.some.inj hs).symm
      rw [hres]
      exact ⟨m, hm, rfl, rfl, hb, rfl⟩

theorem enrichOutput_some {labels : Labels} {o : Output} {eo : EnrichedOutput}
    (h : enrichOutput labels o = some eo) :
    ∃ idx technique name, parseLabelIdx o.label = some idx ∧
      labels.label_to_technique idx = some technique ∧
      labels.technique_to_name technique = some name ∧
      eo = { label := o.label, score := o.score, technique := technique,
             technique_name := name,
             webpage_link := "https://attack.mitre.org/techniques/" ++ technique ++ "/" } := by
  unfold enrichOutput at h
  split at h
  · exact absurd h (by simp)
  next idx hidx =>
    split at h
    · exact absurd h (by simp)
    next tech htech =>
      split at h
      · exact absurd h (by simp)
      next name hname =>
        exact ⟨idx, tech, name, hidx, htech, hname, (Option.some.inj h).symm⟩

theorem enum_filter_fst_map (l : List String) (q : Nat → Bool) :
    ((l.enum.filter (fun ic => q ic.1)).map (fun ic => ic.1 + 1)) =
      ((List.range l.length).filter q).map (fun i => i + 1) := by
  have h1 : (l.enum.filter (fun ic => q ic.1)).map (fun ic => ic.1 + 1)
      = ((l.enum.filter (fun ic => q ic.1)).map Prod.fst).map (fun i => i + 1) := by
    rw [List.map_map]
    rfl
  have h2 : (l.enum.filter (fun ic => q ic.1)).map Prod.fst
      = (l.enum.map Prod.fst).filter q := by
    rw [List.filter_map]
    rfl
  rw [h1, h2, List.enum_map_fst]

/-! ### The claims about `format_predictions` -/

/-- C1: for a non-empty prediction list whose maximum confidence `m` is
strictly below the configured threshold, and nonnegative confidences, a
completed `format_predictions` call sets the effective threshold to 0.0
for the whole invocation, emits exactly one warning, and retains every
chunk in the report. -/
theorem relaxation_retains_all_chunks (configs : Configs) (pdo : ProcessData)
    (labels : Labels) (outputs : List Output) (explain : Explainer)
    (res : FormatResult) (m : ℚ)
    (hnn : ∀ o ∈ outputs, 0 ≤ o.score)
    (hm : maxScores outputs = some m) (hlt : m < configs.score)
    (hs : format_predictions configs pdo labels outputs explain = some res) :
    res.configs.score = 0 ∧ res.warnings = [warningMsg] ∧
      res.inference_df.length = pdo.chunked_data.length := by
  rcases format_predictions_inv hs with ⟨m', hm', hc, hw, hb, -⟩
  have hmm : m' = m := Option.some.inj (hm'.symm.trans hm)
  subst hmm
  have heff : (relaxedConfigs configs m').1.score = 0 := by
    rw [relaxedConfigs_pos hlt]
  refine ⟨by rw [hc, relaxedConfigs_pos hlt], by rw [hw, relaxedConfigs_pos hlt], ?_⟩
  have hchar := buildRows_eq_filterMap _ pdo labels outputs explain _ _ hb
  have hall : ∀ ic ∈ pdo.chunked_data.enum, ∃ r,
      (processChunk (relaxedConfigs configs m').1.score pdo labels outputs explain
        ic.1 ic.2).getD none = some r := by
    intro ic hic
    have hne := buildRows_no_err _ pdo labels outputs explain _ _ hb ic hic
    cases hpc : processChunk (relaxedConfigs configs m').1.score pdo labels outputs
        explain ic.1 ic.2 with
    | none => exact absurd hpc hne
    | some orow =>
      cases orow with
      | none =>
        rcases (processChunk_skip_iff _ pdo labels outputs explain ic.1 ic.2).mp hpc
          with ⟨o, ho, hso⟩
        rw [heff] at hso
        exact absurd hso (not_lt.mpr (hnn o (List.get?_mem ho)))
      | some r =>
        exact ⟨r, rfl⟩
  rw [hchar, length_filterMap_all_some _ _ hall, List.enum_length]

/-- Witness for C1 at the spec's relaxed example: threshold 0.95,
confidences 0.92 and 0.10, so the threshold relaxes and both chunks are
reported. -/
theorem relaxation_retains_all_chunks_witness :
    (∀ o ∈ exOutputs, 0 ≤ o.score) ∧
    maxScores exOutputs = some (mkRat 92 100) ∧
    mkRat 92 100 < exCfgHigh.score ∧
    format_predictions exCfgHigh exPdo exLabels2 exOutputs exExplain = some exResC1 ∧
    (exResC1.configs.score = 0 ∧ exResC1.warnings = [warningMsg] ∧
      exResC1.inference_df.length = exPdo.chunked_data.length) :=
  ⟨by decide, by decide, by decide, by decide,
    relaxation_retains_all_chunks exCfgHigh exPdo exLabels2 exOutputs exExplain exResC1
      (mkRat 92 100) (by decide) (by decide) (by decide) (by decide)⟩

/-- C2: in a completed call, the reported chunk ordinals are exactly (and
in chunk order) those of the chunks whose prediction confidence is at
least the effective threshold, and every retained row's confidence is at
least the effective threshold. -/
theorem rows_iff_confidence_at_least_threshold (configs : Configs) (pdo : ProcessData)
    (labels : Labels) (outputs : List Output) (explain : Explainer) (res : FormatResult)
    (hs : format_predictions configs pdo labels outputs explain = some res) :
    res.inference_df.map (fun r => r.chunk_num) =
      ((List.range pdo.chunked_data.length).filter
        (survivesB res.configs.score outputs)).map (fun i => i + 1) ∧
    ∀ r ∈ res.inference_df, res.configs.score ≤ r.output.score := by
  rcases format_predictions_inv hs with ⟨m, hm, hc, hw, hb, -⟩
  constructor
  · have h1 := buildRows_map_chunkNum _ pdo labels outputs explain _ _ hb
    rw [hc, h1, enum_filter_fst_map]
  · intro r hr
    have hchar := buildRows_eq_filterMap _ pdo labels outputs explain _ _ hb
    rw [hchar] at hr
    rcases List.mem_filterMap.mp hr with ⟨ic, hic, hficr⟩
    cases hpc : processChunk (relaxedConfigs configs m).1.score pdo labels outputs
        explain ic.1 ic.2 with
    | none =>
      rw [hpc] at hficr
      exact absurd hficr (by simp)
    | some orow =>
      cases orow with
      | none =>
        rw [hpc] at hficr
        exact absurd hficr (by simp)
      | some r' =>
        rw [hpc] at hficr
        have hrr : r' = r := by simpa using hficr
        subst hrr
        rcases processChunk_some_row _ pdo labels outputs explain hpc with
          ⟨o, ptxt, ioc, eo, ho, hsc, -, -, heo, hrw⟩
        rcases enrichOutput_some heo with ⟨idx, tech, name, -, -, -, heq⟩
        have hesc : r'.output.score = o.score := by
          rw [hrw]
          show eo.score = o.score
          rw [heq]
        rw [hc, hesc]
        exact not_lt.mp hsc

/-- Witness for C2 at the spec's 0.5-threshold example. -/
theorem rows_iff_confidence_at_least_threshold_witness :
    format_predictions exCfg exPdo exLabels exOutputs exExplain = some exResC4 ∧
    exResC4.inference_df.map (fun r => r.chunk_num) =
      ((List.range exPdo.chunked_data.length).filter
        (survivesB exResC4.configs.score exOutputs)).map (fun i => i + 1) :=
  ⟨by decide,
    (rows_iff_confidence_at_least_threshold exCfg exPdo exLabels exOutputs exExplain
      exResC4 (by decide)).1⟩

/-- C4: every row of a completed report carries a prediction enriched by
parsing the trailing integer of its `"LABEL_<int>"` label, resolving the
technique ID and display name through the label maps, and attaching the
URL `https://attack.mitre.org/techniques/<technique_id>/`. -/
theorem technique_metadata_resolution (configs : Configs) (pdo : ProcessData)
    (labels : Labels) (outputs : List Output) (explain : Explainer) (res : FormatResult)
    (hs : format_predictions configs pdo labels outputs explain = some res) :
    ∀ r ∈ res.inference_df, ∃ o idx,
      outputs.get? (r.chunk_num - 1) = some o ∧
      r.output.label = o.label ∧ r.output.score = o.score ∧
      parseLabelIdx o.label = some idx ∧
      labels.label_to_technique idx = some r.output.technique ∧
      labels.technique_to_name r.output.technique = some r.output.technique_name ∧
      r.output.webpage_link =
        "https://attack.mitre.org/techniques/" ++ r.output.technique ++ "/" := by
  rcases format_predictions_inv hs with ⟨m, hm, hc, hw, hb, -⟩
  intro r hr
  have hchar := buildRows_eq_filterMap _ pdo labels outputs explain _ _ hb
  rw [hchar] at hr
  rcases List.mem_filterMap.mp hr with ⟨ic, hic, hficr⟩
  cases hpc : processChunk (relaxedConfigs configs m).1.score pdo labels outputs
      explain ic.1 ic.2 with
  | none =>
    rw [hpc] at hficr
    exact absurd hficr (by simp)
  | some orow =>
    cases orow with
    | none =>
      rw [hpc] at hficr
      exact absurd hficr (by simp)
    | some r' =>
      rw [hpc] at hficr
      have hrr : r' = r := by simpa using hficr
      subst hrr
      rcases processChunk_some_row _ pdo labels outputs explain hpc with
        ⟨o, ptxt, ioc, eo, ho, hsc, -, -, heo, hrw⟩
      rcases enrichOutput_some heo with ⟨idx, tech, name, hidx, htech, hname, heq⟩
      subst hrw
      subst heq
      refine ⟨o, idx, ?_, rfl, rfl, hidx, htech, hname, rfl⟩
      show outputs.get? (ic.1 + 1 - 1) = some o
      rw [Nat.add_sub_cancel]
      exact ho

/-- Witness for C4 at the spec's example: predictions `LABEL_3`@0.92 and
`LABEL_1`@0.10, threshold 0.5, label map `{3: T1566}`; the report has
exactly one row, with technique `T1566` and its ATT&CK URL. -/
theorem technique_metadata_resolution_witness :
    format_predictions exCfg exPdo exLabels exOutputs exExplain = some exResC4 ∧
    exResC4.inference_df.map (fun r => (r.output.technique, r.output.webpage_link)) =
      [("T1566", "https://attack.mitre.org/techniques/T1566/")] ∧
    ∀ r ∈ exResC4.inference_df, ∃ o idx,
      exOutputs.get? (r.chunk_num - 1) = some o ∧
      r.output.label = o.label ∧ r.output.score = o.score ∧
      parseLabelIdx o.label = some idx ∧
      exLabels.label_to_technique idx = some r.output.technique ∧
      exLabels.technique_to_name r.output.technique = some r.output.technique_name ∧
      r.output.webpage_link =
        "https://attack.mitre.org/techniques/" ++ r.output.technique ++ "/" :=
  ⟨by decide, by decide,
    technique_metadata_resolution exCfg exPdo exLabels exOutputs exExplain exResC4
      (by decide)⟩

/-- C5 counterexample: on the empty chunk/prediction input,
`format_predictions` raises (`max()` of an empty sequence, modelled as
`none`) instead of returning an empty report and IOC table. -/
theorem empty_input_raises_counterexample :
    format_predictions { score := mkRat 1 2, ti := "doc" }
      { chunked_data := [], processed_data := [], iocs := [] } exLabels [] exExplain =
      none := by decide

/-- C5 (amended): for the empty input chunk/prediction sequence the
pipeline raises an error (Python `ValueError` from `max` of an empty
sequence, modelled as `none`) for every configuration, label map and
explainer, rather than returning; only the IOC aggregator by itself
returns an explicitly empty table on empty input. -/
theorem empty_input_raises (configs : Configs) (labels : Labels) (explain : Explainer) :
    format_predictions configs { chunked_data := [], processed_data := [], iocs := [] }
        labels [] explain = none ∧
      transform_list_of_ioc_dicts [] = [] :=
  ⟨rfl, rfl⟩

/-- C7: in a completed call, if no chunk survives the filter the report is
the empty list (a value, not an error), and every row of a non-empty
report is assembled by `assembleRow`, whose fields are exactly the fixed
column order chunk ordinal, sentence range, raw text, processed text,
enriched prediction, model identifier, IOCs, attribution base, attribution
buckets. -/
theorem report_empty_or_assembled_rows (configs : Configs) (pdo : ProcessData)
    (labels : Labels) (outputs : List Output) (explain : Explainer) (res : FormatResult)
    (hs : format_predictions configs pdo labels outputs explain = some res) :
    ((∀ i ∈ List.range pdo.chunked_data.length,
        survivesB res.configs.score outputs i = false) → res.inference_df = []) ∧
    ∀ r ∈ res.inference_df, ∃ i c o ptxt ioc eo,
      pdo.chunked_data.get? i = some c ∧ outputs.get? i = some o ∧
      pdo.processed_data.get? i = some ptxt ∧ pdo.iocs.get? i = some ioc ∧
      enrichOutput labels o = some eo ∧
      r = assembleRow i c ptxt eo ioc (shapRun explain c o.label).1
        (shapRun explain c o.label).2 := by
  rcases format_predictions_inv hs with ⟨m, hm, hc, hw, hb, -⟩
  constructor
  · intro hnone
    rw [hc] at hnone
    have h1 := buildRows_map_chunkNum _ pdo labels outputs explain _ _ hb
    have hfe : (pdo.chunked_data.enum.filter
        (fun ic => survivesB (relaxedConfigs configs m).1.score outputs ic.1)) = [] := by
      rw [List.filter_eq_nil_iff]
      intro ic hic
      have hget := List.mem_enum_iff_get?.mp hic
      rcases List.get?_eq_some.mp hget with ⟨hlt, -⟩
      have := hnone ic.1 (List.mem_range.mpr hlt)
      simp [this]
    rw [hfe] at h1
    have h2 : res.inference_df.map (fun r => r.chunk_num) = [] := by simpa using h1
    exact List.map_eq_nil_iff.mp h2
  · intro r hr
    have hchar := buildRows_eq_filterMap _ pdo labels outputs explain _ _ hb
    rw [hchar] at hr
    rcases List.mem_filterMap.mp hr with ⟨ic, hic, hficr⟩
    cases hpc : processChunk (relaxedConfigs configs m).1.score pdo labels outputs
        explain ic.1 ic.2 with
    | none =>
      rw [hpc] at hficr
      exact absurd hficr (by simp)
    | some orow =>
      cases orow with
      | none =>
        rw [hpc] at hficr
        exact absurd hficr (by simp)
      | some r' =>
        rw [hpc] at hficr
        have hrr : r' = r := by simpa using hficr
        subst hrr
        rcases processChunk_some_row _ pdo labels outputs explain hpc with
          ⟨o, ptxt, ioc, eo, ho, hsc, hp, hioc, heo, hrw⟩
        exact ⟨ic.1, ic.2, o, ptxt, ioc, eo, List.mem_enum_iff_get?.mp hic, ho, hp,
          hioc, heo, hrw⟩

/-- Witness for C7 at a concrete input where the lone chunk is filtered
out: the completed call returns the explicitly empty report. -/
theorem report_empty_or_assembled_rows_witness :
    format_predictions exCfg exPdoSkip exLabels exOutputsSkip exExplain = some exResC7 ∧
    (∀ i ∈ List.range exPdoSkip.chunked_data.length,
      survivesB exResC7.configs.score exOutputsSkip i = false) ∧
    exResC7.inference_df = [] :=
  ⟨by decide, by decide,
    (report_empty_or_assembled_rows exCfg exPdoSkip exLabels exOutputsSkip exExplain
      exResC7 (by decide)).1 (by decide)⟩

/-- C9: accessing row `i` of an `n`-row report yields the explicit
out-of-range `IndexError` message exactly when `i` is not a valid index,
and the row itself exactly when it is; the empty report is an ordinary
list value (every access on it returns the error, but the report itself is
not an error). -/
theorem row_access_out_of_range (df : List InferenceRow) (i : Nat) :
    (shapRowAccess df i = Except.error (oobMsg i) ↔ df.length ≤ i) ∧
    (shapRowAccess df i = Except.ok (df.getD i defaultRow) ↔ i < df.length) := by
  constructor
  · constructor
    · intro h
      by_contra hge
      have hlt : i < df.length := not_le.mp hge
      have hg : df.get? i = some (df.get ⟨i, hlt⟩) := List.get?_eq_get hlt
      unfold shapRowAccess at h
      rw [hg] at h
      exact absurd h (by simp)
    · intro h
      have hg : df.get? i = none := List.get?_eq_none.mpr h
      unfold shapRowAccess
      rw [hg]
  · constructor
    · intro h
      by_contra hge
      have hle : df.length ≤ i := not_lt.mp hge
      have hg : df.get? i = none := List.get?_eq_none.mpr hle
      unfold shapRowAccess at h
      rw [hg] at h
      exact absurd h (by simp)
    · intro h
      have hg : df.get? i = some (df.get ⟨i, h⟩) := List.get?_eq_get h
      unfold shapRowAccess
      rw [hg, List.getD_eq_get?, hg]
      rfl

/-- C10: the threshold relaxation is a mutation of the caller's
configuration (modelled as the configuration record returned with the
result): after a completed call the configuration's score field is 0.0
exactly when relaxation triggered, and the configuration is returned
entirely unchanged when it did not. -/
theorem config_mutation (configs : Configs) (pdo : ProcessData) (labels : Labels)
    (outputs : List Output) (explain : Explainer) (res : FormatResult) (m : ℚ)
    (hm : maxScores outputs = some m)
    (hs : format_predictions configs pdo labels outputs explain = some res) :
    (m < configs.score → res.configs = { configs with score := 0 }) ∧
    (¬ m < configs.score → res.configs = configs) := by
  rcases format_predictions_inv hs with ⟨m', hm', hc, -, -, -⟩
  have hmm : m' = m := Option.some.inj (hm'.symm.trans hm)
  subst hmm
  constructor
  · intro h
    rw [hc, relaxedConfigs_pos h]
  · intro h
    rw [hc, relaxedConfigs_neg h]

/-- Witness for C10 at the relaxed example: the returned configuration has
its score field mutated to 0. -/
theorem config_mutation_witness :
    maxScores exOutputs = some (mkRat 92 100) ∧
    format_predictions exCfgHigh exPdo exLabels2 exOutputs exExplain = some exResC1 ∧
    mkRat 92 100 < exCfgHigh.score ∧
    exResC1.configs = { exCfgHigh with score := 0 } :=
  ⟨by decide, by decide, by decide,
    (config_mutation exCfgHigh exPdo exLabels2 exOutputs exExplain exResC1
      (mkRat 92 100) (by decide) (by decide)).1 (by decide)⟩

end Inference
